import Mathlib

/-!
Verification of the ryolang/ryo repository.

The repository ships two kinds of artifacts:

* executable JavaScript: `docs/extra/ryo-highlight.js` (a highlight.js
  language definition for Ryo) and a small MkDocs hook that registers the
  language and re-highlights code blocks on page navigation.  These are
  embedded shallowly below (namespace `RyoHighlight`).

* a design document for the Ryo concurrent runtime (green threads, futures,
  channels, select, scopes, shared cells).  The runtime itself is not
  implemented anywhere in the repository, so its operations are modelled
  from the specification text (namespace `RyoRuntime`); each such
  definition's doc comment starts with `Modelled from the spec:`.
-/

namespace RyoHighlight

/-- Identifiers for the highlight.js mode objects constructed in
`ryo-highlight.js`, plus the three built-in hljs modes the file uses
(`hljs.BACKSLASH_ESCAPE`, `hljs.QUOTE_STRING_MODE`, `hljs.APOS_STRING_MODE`).
Mode objects are cyclic in the source (the f-string interpolation mode ends up
containing the f-string mode), so modes are named by identifier and the
containment graph is a function on identifiers. -/
inductive ModeId
  | DOC_COMMENT
  | COMMENT
  | F_STRING_INTERPOLATION
  | F_STRING
  | NUMBER
  | ATTRIBUTE
  | PASCAL_CASE_TYPE
  | TYPE_DEF
  | FUNCTION_DEF
  | IMPL_DEF
  | PREFIXED_TYPE
  | BACKSLASH_ESCAPE
  | QUOTE_STRING_MODE
  | APOS_STRING_MODE
deriving DecidableEq, Repr

/-- The shape of the `KEYWORDS` object of `ryo-highlight.js`: a `$pattern`
regex source and four word classes. -/
structure Keywords where
  pattern : String
  keyword : List String
  literal : List String
  type : List String
  built_in : List String
deriving DecidableEq, Repr

/-- The `KEYWORDS` constant of `ryo-highlight.js`, lines 10-70, transcribed
verbatim (word lists in source order). -/
def KEYWORDS : Keywords where
  pattern := "[a-zA-Z_][a-zA-Z0-9_]*"
  keyword :=
    ["and", "as", "break", "case", "catch", "continue", "elif", "else",
     "enum", "error", "fn", "for", "if", "impl", "import", "in", "match",
     "move", "mut", "not", "or", "orelse", "package", "pub", "return",
     "select", "struct", "trait", "try"]
  literal := ["true", "false", "none"]
  type :=
    ["list", "map", "shared", "weak", "bool", "char", "f32", "f64", "float",
     "i16", "i32", "i64", "i8", "int", "isize", "str", "u16", "u32", "u64",
     "u8", "uint", "usize", "void"]
  built_in := ["self", "panic", "print", "println"]

/-- The initial value of `F_STRING_INTERPOLATION.contains` in the source:
the empty array, with the comment "Will be populated later to allow
nesting". -/
def F_STRING_INTERPOLATION_contains_init : List ModeId := []

/-- The final value of `F_STRING_INTERPOLATION.contains` after the
post-construction push on lines 108-112 of `ryo-highlight.js`:
`F_STRING_INTERPOLATION.contains.push(F_STRING, hljs.QUOTE_STRING_MODE,
NUMBER)`. -/
def F_STRING_INTERPOLATION_contains : List ModeId :=
  F_STRING_INTERPOLATION_contains_init ++
    [ModeId.F_STRING, ModeId.QUOTE_STRING_MODE, ModeId.NUMBER]

/-- The `contains` list of each mode of `ryo-highlight.js` (after the
post-construction population of the interpolation mode).  The two anonymous
sub-modes of `FUNCTION_DEF` (the parameter-list and return-type modes) have
no names in the source and are not reachable from the f-string fragment, so
they are not given identifiers here. -/
def modeContains : ModeId → List ModeId
  | .DOC_COMMENT => []
  | .COMMENT => []
  | .F_STRING_INTERPOLATION => F_STRING_INTERPOLATION_contains
  | .F_STRING => [.BACKSLASH_ESCAPE, .F_STRING_INTERPOLATION]
  | .NUMBER => []
  | .ATTRIBUTE => []
  | .PASCAL_CASE_TYPE => []
  | .TYPE_DEF => []
  | .FUNCTION_DEF => []
  | .IMPL_DEF => [.COMMENT, .PASCAL_CASE_TYPE]
  | .PREFIXED_TYPE => [.PASCAL_CASE_TYPE]
  | .BACKSLASH_ESCAPE => []
  | .QUOTE_STRING_MODE => [.BACKSLASH_ESCAPE]
  | .APOS_STRING_MODE => [.BACKSLASH_ESCAPE]

/-- The `scope` field of each mode of `ryo-highlight.js` (`none` when the
source mode object has no `scope` key). -/
def modeScope : ModeId → Option String
  | .DOC_COMMENT => some "doctag"
  | .COMMENT => some "comment"
  | .F_STRING_INTERPOLATION => some "subst"
  | .F_STRING => some "string"
  | .NUMBER => some "number"
  | .ATTRIBUTE => some "meta"
  | .PASCAL_CASE_TYPE => some "type"
  | .TYPE_DEF => none
  | .FUNCTION_DEF => none
  | .IMPL_DEF => none
  | .PREFIXED_TYPE => none
  | .BACKSLASH_ESCAPE => none
  | .QUOTE_STRING_MODE => some "string"
  | .APOS_STRING_MODE => some "string"

/-- Tokens of the f-string fragment of the language: the `begin` / `end`
regexes of the modes reachable from `F_STRING` each match one of these
lexemes.  `fquote` is the two-character lexeme `f"` (begin of `F_STRING`),
`quote` is `"`, `lbrace` and `rbrace` are the interpolation delimiters,
`esc` is a backslash escape, `num` a numeric literal, `plain` any other
text. -/
inductive Tok
  | fquote
  | quote
  | lbrace
  | rbrace
  | esc
  | num
  | plain
deriving DecidableEq, Repr

/-- Token-level reading of each mode's `begin` regex: `modeBeginTok m t` is
true when token `t` matches the `begin` of mode `m`.  Only the modes
reachable from the f-string fragment have token-level begins. -/
def modeBeginTok : ModeId → Tok → Bool
  | .F_STRING, .fquote => true
  | .F_STRING_INTERPOLATION, .lbrace => true
  | .QUOTE_STRING_MODE, .quote => true
  | .BACKSLASH_ESCAPE, .esc => true
  | .NUMBER, .num => true
  | _, _ => false

/-- Token-level reading of each mode's `end` regex; `none` for modes that
match a single lexeme and have no `end` (escape sequences, numbers). -/
def modeEndTok : ModeId → Option Tok
  | .F_STRING => some Tok.quote
  | .F_STRING_INTERPOLATION => some Tok.rbrace
  | .QUOTE_STRING_MODE => some Tok.quote
  | _ => none

/-- A fuel-indexed recursive-descent matcher over the mode containment
graph, following the highlight.js engine: inside mode `m`, a token that
begins some child of `m` (first match in `contains` order) opens that
child; a child without an `end` consumes its begin token only; the parent's
`end` token closes the mode and returns the remaining tokens; any other
token is plain text.  Returns `none` when the mode is never closed (or fuel
runs out). -/
def runMode : Nat → ModeId → List Tok → Option (List Tok)
  | 0, _, _ => none
  | _ + 1, _, [] => none
  | fuel + 1, m, t :: rest =>
    match (modeContains m).find? (fun c => modeBeginTok c t) with
    | some c =>
      cond (modeEndTok c).isSome
        ((runMode fuel c rest).bind (fun rest2 => runMode fuel m rest2))
        (runMode fuel m rest)
    | none =>
      cond (modeEndTok m == some t) (some rest) (runMode fuel m rest)

/-- The body (everything after the opening `f"`) of an f-string whose sole
content is an interpolation holding another f-string, nested `n` levels
deep; the innermost f-string holds one plain character. -/
def fbody : Nat → List Tok
  | 0 => [Tok.plain, Tok.quote]
  | n + 1 => Tok.lbrace :: (Tok.fquote :: fbody n) ++ [Tok.rbrace, Tok.quote]

/-- Token stream of an f-string nested `n` interpolation levels deep:
`f"{f"{...f"c"...}"}"`. -/
def nestedFString (n : Nat) : List Tok :=
  Tok.fquote :: fbody n

/-- The token stream is recognized as one complete f-string: it opens with
`f"`, and running the `F_STRING` mode on the remainder consumes every
token. -/
def acceptsFString (fuel : Nat) (toks : List Tok) : Prop :=
  match toks with
  | Tok.fquote :: rest => runMode fuel ModeId.F_STRING rest = some []
  | _ => False

/-- The shape of the language-definition object returned by the `ryo`
function of `ryo-highlight.js`.  Regex fields (`illegal`) are stored as the
literal character sequence the regex matches. -/
structure Language where
  name : String
  aliases : List String
  keywords : Keywords
  illegal : String
  contains : List ModeId
deriving DecidableEq, Repr

/-- The language definition returned by `ryo(hljs)` (lines 171-191 of
`ryo-highlight.js`).  The returned object does not depend on the `hljs`
argument beyond the three built-in modes named in `ModeId`, so it is a
constant here.  `illegal` is the regex `/<\//`, i.e. the literal text
`</`. -/
def ryo : Language where
  name := "Ryo"
  aliases := ["ryo"]
  keywords := KEYWORDS
  illegal := "</"
  contains :=
    [ModeId.DOC_COMMENT, ModeId.COMMENT, ModeId.ATTRIBUTE, ModeId.F_STRING,
     ModeId.QUOTE_STRING_MODE, ModeId.APOS_STRING_MODE, ModeId.NUMBER,
     ModeId.IMPL_DEF, ModeId.FUNCTION_DEF, ModeId.TYPE_DEF,
     ModeId.PREFIXED_TYPE, ModeId.PASCAL_CASE_TYPE]

/-- The registration state of an hljs instance: the list of
`(name, definition)` pairs passed to `registerLanguage`, most recent
first. -/
structure HljsState where
  languages : List (String × Language)
deriving DecidableEq, Repr

/-- `hljs.getLanguage(name)`: the definition registered under `name`, if
any. -/
def getLanguage (s : HljsState) (nm : String) : Option Language :=
  s.languages.lookup nm

/-- `hljs.registerLanguage(name, def)`: record the definition under
`name` (keyed lookup, so an earlier entry for the same name is
shadowed). -/
def registerLanguage (s : HljsState) (nm : String) (lang : Language) :
    HljsState :=
  ⟨(nm, lang) :: s.languages⟩

/-- The page state seen by the MkDocs hook: the hljs registration state,
the `pre code` blocks present on the page (by identifier), and the log of
highlight calls made so far (`hljs.highlightElement` per block, appended in
document order on each run). -/
structure DocEnv where
  hljs : HljsState
  blocks : List Nat
  highlightLog : List Nat
deriving DecidableEq, Repr

/-- One run of the `document$.subscribe` callback (the unnamed MkDocs hook
file): register the Ryo language only if `getLanguage("ryo")` is not
already defined, then highlight every `pre code` block on the page. -/
def documentSubscribeRun (d : DocEnv) : DocEnv :=
  let h :=
    if (getLanguage d.hljs "ryo").isSome then d.hljs
    else registerLanguage d.hljs "ryo" ryo
  ⟨h, d.blocks, d.highlightLog ++ d.blocks⟩

/-- `n` consecutive runs of the `document$.subscribe` callback (one per
instant page navigation). -/
def runN : Nat → DocEnv → DocEnv
  | 0, d => d
  | n + 1, d => runN n (documentSubscribeRun d)

end RyoHighlight

namespace RyoRuntime

/-- Modelled from the spec: the `Channel[T]` entity of the data model —
"capacity C (0 = unbuffered, ∞ = unbounded), ring buffer of pending values,
... closed flag".  The queues of blocked senders/receivers are represented
behaviourally (suspension outcomes of `sendAction` / `recvAction` and the
rendezvous step of `ChanStep`) rather than as stored state.  The runtime is
not implemented in the repository; only its design document exists. -/
structure Channel (V : Type) where
  capacity : Nat
  buffer : List V
  closed : Bool
deriving DecidableEq, Repr

/-- A channel together with its commit history: the values successfully
committed by `send` and the values successfully returned by `recv`, each in
commit order. -/
structure ChanHist (V : Type) where
  chan : Channel V
  sent : List V
  received : List V
deriving DecidableEq, Repr

/-- A freshly created channel of capacity `C`: empty buffer, open, no
history. -/
def ChanHist.init (V : Type) (C : Nat) : ChanHist V :=
  ⟨⟨C, [], false⟩, [], []⟩

/-- Modelled from the spec: the committed channel operations of section
4.3.  A buffered `send` commits only on an open channel with buffer room
and appends to the ring buffer; a capacity-0 `send` commits only together
with a simultaneously ready receiver (rendezvous: both histories extend at
once and the buffer stays empty); `recv` commits by taking the buffer head;
`close` sets the closed flag.  Suspended operations commit nothing and so
take no step. -/
inductive ChanStep {V : Type} : ChanHist V → ChanHist V → Prop
  | sendBuffered (s : ChanHist V) (v : V)
      (hopen : s.chan.closed = false)
      (hroom : s.chan.buffer.length < s.chan.capacity) :
      ChanStep s ⟨⟨s.chan.capacity, s.chan.buffer ++ [v], s.chan.closed⟩,
        s.sent ++ [v], s.received⟩
  | sendRendezvous (s : ChanHist V) (v : V)
      (hopen : s.chan.closed = false)
      (hcap : s.chan.capacity = 0)
      (hbuf : s.chan.buffer = []) :
      ChanStep s ⟨s.chan, s.sent ++ [v], s.received ++ [v]⟩
  | recvCommit (s : ChanHist V) (v : V) (rest : List V)
      (hbuf : s.chan.buffer = v :: rest) :
      ChanStep s ⟨⟨s.chan.capacity, rest, s.chan.closed⟩,
        s.sent, s.received ++ [v]⟩
  | closeStep (s : ChanHist V) :
      ChanStep s ⟨⟨s.chan.capacity, s.chan.buffer, true⟩, s.sent, s.received⟩

/-- Channel states reachable from a fresh channel of capacity `C` by any
sequence of committed operations. -/
inductive ChanReachable {V : Type} (C : Nat) : ChanHist V → Prop
  | init : ChanReachable C (ChanHist.init V C)
  | step {s t : ChanHist V} :
      ChanReachable C s → ChanStep s t → ChanReachable C t

/-- Outcome of one `recv()` call as seen by the caller. -/
inductive RecvOutcome (V : Type)
  | suspends
  | value (v : V) (after : Channel V)
  | closedSignal
deriving DecidableEq, Repr

/-- Modelled from the spec: "`recv()` suspends iff the buffer is empty and
the channel is not closed; if closed and empty it completes with a 'closed'
signal rather than suspending forever"; otherwise it takes the buffer
head. -/
def recvAction {V : Type} (c : Channel V) : RecvOutcome V :=
  match c.buffer with
  | v :: rest => RecvOutcome.value v ⟨c.capacity, rest, c.closed⟩
  | [] => if c.closed then RecvOutcome.closedSignal else RecvOutcome.suspends

/-- Outcome of one `send(value)` call as seen by the caller. -/
inductive SendOutcome (V : Type)
  | suspends
  | committed (after : Channel V)
  | closedError
deriving DecidableEq, Repr

/-- Modelled from the spec: "`send(value)` ... suspends the calling task iff
the buffer is full (or, for capacity 0, until a receiver is simultaneously
ready); otherwise it completes immediately", and "sends after close fail
immediately (no suspension)" with `ChannelClosed`.  The capacity-0 case with
no simultaneously ready receiver falls into `suspends`; the rendezvous
commit is `ChanStep.sendRendezvous`. -/
def sendAction {V : Type} (c : Channel V) (v : V) : SendOutcome V :=
  if c.closed then SendOutcome.closedError
  else if c.buffer.length < c.capacity then
    SendOutcome.committed ⟨c.capacity, c.buffer ++ [v], c.closed⟩
  else SendOutcome.suspends

/-- Modelled from the spec: closing a channel makes it "permanently
closed" — it sets the closed flag and changes nothing else. -/
def closeChan {V : Type} (c : Channel V) : Channel V :=
  { c with closed := true }

/-- Modelled from the spec: the `Future[T]` result slot — "state ∈
{Pending, Ready(value), Failed(error), Cancelled}". -/
inductive FutureState (V E : Type)
  | Pending
  | Ready (v : V)
  | Failed (e : E)
  | Cancelled
deriving DecidableEq, Repr

/-- A future state is terminal when it is no longer `Pending`. -/
def FutureState.isTerminal {V E : Type} : FutureState V E → Bool
  | .Pending => false
  | _ => true

/-- The operations that touch a future's result slot: the producing task
resolving or failing it, `cancel(future)`, and the read performed by
`await` (which registers a waiter but never writes the slot). -/
inductive FutOp (V E : Type)
  | resolve (v : V)
  | fail (e : E)
  | cancel
  | awaitRead
deriving DecidableEq, Repr

/-- Modelled from the spec: "A Future's state transition is monotonic and
single-write: once terminal, it never changes" and it "transitions exactly
once from Pending to a terminal state".  An operation on a terminal slot
leaves it unchanged; on a pending slot, `resolve` / `fail` / `cancel` write
the corresponding terminal state and `awaitRead` leaves it pending. -/
def applyOp {V E : Type} (op : FutOp V E) (s : FutureState V E) :
    FutureState V E :=
  if s.isTerminal then s
  else
    match op with
    | .resolve v => FutureState.Ready v
    | .fail e => FutureState.Failed e
    | .cancel => FutureState.Cancelled
    | .awaitRead => s

/-- A whole sequence of future operations applied in order. -/
def applyOps {V E : Type} (ops : List (FutOp V E)) (s : FutureState V E) :
    FutureState V E :=
  ops.foldl (fun st op => applyOp op st) s

/-- How many operations of the sequence change the future's state. -/
def changeCount {V E : Type} [DecidableEq V] [DecidableEq E] :
    FutureState V E → List (FutOp V E) → Nat
  | _, [] => 0
  | s, op :: ops =>
    (if applyOp op s = s then 0 else 1) + changeCount (applyOp op s) ops

/-- Modelled from the spec: the task lifecycle "state ∈ {Ready, Running,
Suspended, Completed, Cancelled, Panicked}". -/
inductive TaskState
  | Ready
  | Running
  | Suspended
  | Completed
  | Cancelled
  | Panicked
deriving DecidableEq, Repr

/-- Terminal task states: Completed, Cancelled, Panicked. -/
def TaskState.isTerminal : TaskState → Bool
  | .Completed => true
  | .Cancelled => true
  | .Panicked => true
  | _ => false

/-- Modelled from the spec: the transitions of one cooperative task — a
ready task is scheduled, a running task suspends, completes or panics, and
a suspended task is woken or observes cancellation at its suspension point.
Terminal states have no outgoing transitions. -/
inductive TaskStep : TaskState → TaskState → Prop
  | schedule : TaskStep TaskState.Ready TaskState.Running
  | suspends : TaskStep TaskState.Running TaskState.Suspended
  | completes : TaskStep TaskState.Running TaskState.Completed
  | panics : TaskStep TaskState.Running TaskState.Panicked
  | wake : TaskStep TaskState.Suspended TaskState.Ready
  | observeCancel : TaskStep TaskState.Suspended TaskState.Cancelled

/-- Modelled from the spec: a structured-concurrency `Scope` — its child
task states, its monotonic cancellation token, and the outstanding-child
counter that `scope.spawn` increments and a child reaching a terminal state
decrements.  The counter is an integer so that "never goes negative" is a
provable statement rather than a typing artifact. -/
structure ScopeSt where
  children : List TaskState
  cancelRequested : Bool
  count : Int
deriving DecidableEq, Repr

/-- A freshly entered scope: no children, token unset, count zero. -/
def ScopeSt.init : ScopeSt := ⟨[], false, 0⟩

/-- Modelled from the spec: scope events — `scope.spawn` adds a Ready child
and increments the counter; a child takes one `TaskStep` (a child reaching
a terminal state decrements the counter, and a panicking child sets the
scope's cancellation token); the token may also be set directly (a sibling
failure or external cancel).  The token is monotonic: no step clears it. -/
inductive ScopeStep : ScopeSt → ScopeSt → Prop
  | spawn (s : ScopeSt) :
      ScopeStep s ⟨s.children ++ [TaskState.Ready], s.cancelRequested,
        s.count + 1⟩
  | child (s : ScopeSt) (i : Nat) (cur next : TaskState)
      (hget : s.children.get? i = some cur) (hstep : TaskStep cur next) :
      ScopeStep s ⟨s.children.set i next,
        s.cancelRequested || (next == TaskState.Panicked),
        s.count - (if next.isTerminal then 1 else 0)⟩
  | requestCancel (s : ScopeSt) :
      ScopeStep s ⟨s.children, true, s.count⟩

/-- Scope states reachable from a freshly entered scope. -/
inductive ScopeReachable : ScopeSt → Prop
  | init : ScopeReachable ScopeSt.init
  | step {s t : ScopeSt} :
      ScopeReachable s → ScopeStep s t → ScopeReachable t

/-- Modelled from the spec: "Scope exit is itself a suspension point: the
exiting code suspends until child count reaches zero" — `enter_scope(body)`
can return in exactly the states satisfying this predicate.  Note the
condition does not mention the cancellation token: cancellation never
releases the join early. -/
def scopeExitEnabled (s : ScopeSt) : Prop :=
  s.count = 0

/-- Modelled from the spec: a `SharedCell[T]` — its reference count and how
many times the payload's drop has run.  The payload itself is irrelevant to
the counting claim. -/
structure CellSt where
  count : Nat
  payloadDrops : Nat
deriving DecidableEq, Repr

/-- Modelled from the spec: "atomic increment/decrement of a reference
count on clone/drop; payload is dropped exactly once, when the count
transitions from 1 to 0".  Each step is one atomic clone or drop through a
live handle (both require a positive count: a handle that was dropped is
gone). -/
inductive CellStep : CellSt → CellSt → Prop
  | clone (s : CellSt) (h : 0 < s.count) :
      CellStep s ⟨s.count + 1, s.payloadDrops⟩
  | dropHandle (s : CellSt) (h : 0 < s.count) :
      CellStep s ⟨s.count - 1,
        s.payloadDrops + (if s.count = 1 then 1 else 0)⟩

/-- Cell states reachable from a freshly created cell (one handle, payload
alive). -/
inductive CellReachable : CellSt → Prop
  | init : CellReachable ⟨1, 0⟩
  | step {s t : CellSt} : CellReachable s → CellStep s t → CellReachable t

/-- Per-invocation bookkeeping of the select engine over `n` cases: which
cases currently hold a waiter registration, which cases have had their
ownership effect committed (a send completing, a recv taking a value, a
future's result being taken), and how many times each case's body ran. -/
structure SelState (n : Nat) where
  registered : Fin n → Bool
  committed : Fin n → Bool
  bodyRuns : Fin n → Nat

/-- Select bookkeeping at the start of an invocation: nothing registered,
nothing committed, no body run. -/
def SelState.start (n : Nat) : SelState n :=
  ⟨fun _ => false, fun _ => false, fun _ => 0⟩

/-- The cases whose `is_ready()` polls true in round `t`, in case order. -/
def readyList (n : Nat) (env : Nat → Fin n → Bool) (t : Nat) :
    List (Fin n) :=
  (List.finRange n).filter (fun i => env t i)

/-- Modelled from the spec: the select algorithm of section 4.4.  Each
round: poll every case (`env` gives readiness, `pick` chooses among the
ready set — randomized in the design, any choice function here); if a case
was picked, atomically attempt to claim it (`claimOk t w` is false exactly
when a concurrent observer raced and took the readiness first); on a
successful claim, commit that case's ownership effect, run its body once,
cancel the registration on every case, and return the winner; on a failed
claim, un-register from the remaining cases and retry; if none are ready,
register a waiter on every case and wait for the next round.  Fuel bounds
the number of rounds; exhausted fuel means the select is still
suspended. -/
def selectRun (n : Nat) (env : Nat → Fin n → Bool)
    (pick : List (Fin n) → Option (Fin n)) (claimOk : Nat → Fin n → Bool) :
    Nat → Nat → SelState n → SelState n × Option (Fin n)
  | 0, _, st => (st, none)
  | fuel + 1, t, st =>
    match pick (readyList n env t) with
    | some w =>
      cond (claimOk t w)
        (⟨fun _ => false,
          fun i => st.committed i || decide (i = w),
          fun i => st.bodyRuns i + (if i = w then 1 else 0)⟩, some w)
        (selectRun n env pick claimOk fuel (t + 1)
          ⟨fun _ => false, st.committed, st.bodyRuns⟩)
    | none =>
      selectRun n env pick claimOk fuel (t + 1)
        ⟨fun _ => true, st.committed, st.bodyRuns⟩

end RyoRuntime

/-! ## Theorems -/

namespace RyoHighlight

/-- Claim C8: the language definition returned by `ryo` has name "Ryo",
aliases exactly `["ryo"]`, illegal pattern the literal `</`, literals
exactly `true`, `false`, `none`, and a keyword list of exactly the 29 words
transcribed from the source — including `as` and excluding `comptime` and
`unsafe`. -/
theorem ryo_language_definition :
    ryo.name = "Ryo"
    ∧ ryo.aliases = ["ryo"]
    ∧ ryo.illegal = "</"
    ∧ ryo.keywords.literal = ["true", "false", "none"]
    ∧ ryo.keywords.keyword =
        ["and", "as", "break", "case", "catch", "continue", "elif", "else",
         "enum", "error", "fn", "for", "if", "impl", "import", "in", "match",
         "move", "mut", "not", "or", "orelse", "package", "pub", "return",
         "select", "struct", "trait", "try"]
    ∧ ryo.keywords.keyword.length = 29
    ∧ "as" ∈ ryo.keywords.keyword
    ∧ "comptime" ∉ ryo.keywords.keyword
    ∧ "unsafe" ∉ ryo.keywords.keyword := by
  refine ⟨rfl, rfl, rfl, rfl, rfl, rfl, ?_, ?_, ?_⟩ <;> decide

theorem documentSubscribeRun_registered (d : DocEnv) :
    (getLanguage (documentSubscribeRun d).hljs "ryo").isSome = true := by
  show (getLanguage
      (if (getLanguage d.hljs "ryo").isSome then d.hljs
        else registerLanguage d.hljs "ryo" ryo) "ryo").isSome = true
  by_cases h : (getLanguage d.hljs "ryo").isSome = true
  · rw [if_pos h]; exact h
  · rw [if_neg h]; rfl

theorem documentSubscribeRun_of_registered (d : DocEnv)
    (h : (getLanguage d.hljs "ryo").isSome = true) :
    (documentSubscribeRun d).hljs = d.hljs := by
  simp [documentSubscribeRun, h]

theorem runN_hljs_stable :
    ∀ (n : Nat) (d : DocEnv),
      (getLanguage d.hljs "ryo").isSome = true → (runN n d).hljs = d.hljs := by
  intro n
  induction n with
  | zero => intro d _; rfl
  | succ n ih =>
    intro d h
    show (runN n (documentSubscribeRun d)).hljs = d.hljs
    rw [ih (documentSubscribeRun d) (documentSubscribeRun_registered d),
      documentSubscribeRun_of_registered d h]

theorem runN_blocks : ∀ (n : Nat) (d : DocEnv), (runN n d).blocks = d.blocks := by
  intro n
  induction n with
  | zero => intro d; rfl
  | succ n ih => intro d; exact ih (documentSubscribeRun d)

theorem runN_highlightLog :
    ∀ (n : Nat) (d : DocEnv),
      (runN n d).highlightLog
        = d.highlightLog ++ (List.replicate n d.blocks).flatten := by
  intro n
  induction n with
  | zero => intro d; simp [runN]
  | succ n ih =>
    intro d
    show (runN n (documentSubscribeRun d)).highlightLog = _
    rw [ih (documentSubscribeRun d)]
    simp [documentSubscribeRun, List.replicate_succ, List.append_assoc]

/-- Claim C9: the `document$.subscribe` handler registers the Ryo language
only when it is not already registered, so after `n ≥ 1` runs the hljs
registration state — in particular the set of registered language names —
equals the state after one run, while every `pre code` block present is
highlighted again on each of the `n` runs. -/
theorem documentSubscribe_idempotent_registration (d : DocEnv) (n : Nat)
    (hn : 1 ≤ n) :
    (runN n d).hljs = (runN 1 d).hljs
    ∧ ((runN n d).hljs.languages.map Prod.fst).toFinset
        = ((runN 1 d).hljs.languages.map Prod.fst).toFinset
    ∧ (runN n d).highlightLog
        = d.highlightLog ++ (List.replicate n d.blocks).flatten := by
  obtain ⟨m, rfl⟩ : ∃ m, n = m + 1 := ⟨n - 1, by omega⟩
  have hstate : (runN (m + 1) d).hljs = (runN 1 d).hljs := by
    show (runN m (documentSubscribeRun d)).hljs = _
    rw [runN_hljs_stable m (documentSubscribeRun d)
      (documentSubscribeRun_registered d)]
    rfl
  exact ⟨hstate, by rw [hstate], runN_highlightLog (m + 1) d⟩

/-- Witness for C9 at a concrete page state: an empty hljs instance and two
code blocks, run three times. -/
theorem documentSubscribe_idempotent_registration_witness :
    (runN 3 ⟨⟨[]⟩, [0, 1], []⟩).hljs = (runN 1 ⟨⟨[]⟩, [0, 1], []⟩).hljs
    ∧ ((runN 3 ⟨⟨[]⟩, [0, 1], []⟩).hljs.languages.map Prod.fst).toFinset
        = ((runN 1 ⟨⟨[]⟩, [0, 1], []⟩).hljs.languages.map Prod.fst).toFinset
    ∧ (runN 3 ⟨⟨[]⟩, [0, 1], []⟩).highlightLog
        = [] ++ (List.replicate 3 [0, 1]).flatten :=
  documentSubscribe_idempotent_registration ⟨⟨[]⟩, [0, 1], []⟩ 3 (by decide)

end RyoHighlight

namespace RyoHighlight

theorem runMode_mono :
    ∀ (fuel : Nat) (m : ModeId) (toks res : List Tok),
      runMode fuel m toks = some res → runMode (fuel + 1) m toks = some res := by
  intro fuel
  induction fuel with
  | zero =>
    intro m toks res h
    simp [runMode] at h
  | succ f ih =>
    intro m toks res h
    cases toks with
    | nil => simp [runMode] at h
    | cons t rest =>
      simp only [runMode] at h ⊢
      cases hfind : (modeContains m).find? (fun c => modeBeginTok c t) with
      | some c =>
        simp only [hfind] at h ⊢
        cases hend : (modeEndTok c).isSome with
        | true =>
          simp only [hend, cond] at h ⊢
          cases hrun : runMode f c rest with
          | none => rw [hrun] at h; simp at h
          | some rest2 =>
            rw [hrun] at h
            simp only [Option.some_bind] at h
            rw [ih c rest rest2 hrun]
            simpa using ih m rest2 res h
        | false =>
          simp only [hend, cond] at h ⊢
          exact ih m rest res h
      | none =>
        simp only [hfind] at h ⊢
        cases hend : (modeEndTok m == some t) with
        | true => simpa [hend, cond] using h
        | false =>
          simp only [hend, cond] at h ⊢
          exact ih m rest res h

theorem runMode_le {fuel fuel' : Nat} (hle : fuel ≤ fuel') (m : ModeId)
    (toks res : List Tok) (h : runMode fuel m toks = some res) :
    runMode fuel' m toks = some res := by
  induction hle with
  | refl => exact h
  | step _ ih => exact runMode_mono _ m toks res ih

theorem runMode_fstring_quote (fuel : Nat) (rest : List Tok) :
    runMode (fuel + 1) ModeId.F_STRING (Tok.quote :: rest) = some rest := rfl

theorem runMode_fstring_lbrace (fuel : Nat) (rest : List Tok) :
    runMode (fuel + 1) ModeId.F_STRING (Tok.lbrace :: rest)
      = (runMode fuel ModeId.F_STRING_INTERPOLATION rest).bind
          (fun rest2 => runMode fuel ModeId.F_STRING rest2) := rfl

theorem runMode_interp_fquote (fuel : Nat) (rest : List Tok) :
    runMode (fuel + 1) ModeId.F_STRING_INTERPOLATION (Tok.fquote :: rest)
      = (runMode fuel ModeId.F_STRING rest).bind
          (fun rest2 => runMode fuel ModeId.F_STRING_INTERPOLATION rest2) :=
  rfl

theorem runMode_interp_rbrace (fuel : Nat) (rest : List Tok) :
    runMode (fuel + 1) ModeId.F_STRING_INTERPOLATION (Tok.rbrace :: rest)
      = some rest := rfl

theorem runMode_fbody (n : Nat) :
    ∀ rest : List Tok,
      runMode (4 * n + 2) ModeId.F_STRING (fbody n ++ rest) = some rest := by
  induction n with
  | zero => intro rest; rfl
  | succ n ih =>
    intro rest
    have hlist : fbody (n + 1) ++ rest
        = Tok.lbrace :: Tok.fquote ::
            (fbody n ++ (Tok.rbrace :: Tok.quote :: rest)) := by
      simp [fbody, List.cons_append, List.append_assoc]
    have h4 : 4 * (n + 1) + 2 = ((4 * n + 4) + 1) + 1 := by omega
    rw [hlist, h4, runMode_fstring_lbrace, runMode_interp_fquote]
    have hinner : runMode (4 * n + 4) ModeId.F_STRING
        (fbody n ++ (Tok.rbrace :: Tok.quote :: rest))
        = some (Tok.rbrace :: Tok.quote :: rest) :=
      runMode_le (by omega) _ _ _ (ih (Tok.rbrace :: Tok.quote :: rest))
    rw [hinner]
    simp only [Option.some_bind]
    have h5 : 4 * n + 4 = (4 * n + 3) + 1 := by omega
    rw [h5, runMode_interp_rbrace]
    simp only [Option.some_bind]
    exact runMode_fstring_quote ((4 * n + 3) + 1) rest

/-- Claim C10: in the language definition, the f-string interpolation mode
(scope `subst`, begin `{`, end `}`) has, after its post-construction
population, a `contains` list that is exactly the f-string mode itself,
`hljs.QUOTE_STRING_MODE`, and `NUMBER`; the f-string mode (begin `f"`,
end `"`) contains the interpolation mode; and through this cycle an
f-string nested inside the interpolation of an enclosing f-string is
recognized at every nesting depth `n`. -/
theorem fstring_interpolation_cycle :
    F_STRING_INTERPOLATION_contains
        = [ModeId.F_STRING, ModeId.QUOTE_STRING_MODE, ModeId.NUMBER]
    ∧ modeScope ModeId.F_STRING_INTERPOLATION = some "subst"
    ∧ modeBeginTok ModeId.F_STRING_INTERPOLATION Tok.lbrace = true
    ∧ modeEndTok ModeId.F_STRING_INTERPOLATION = some Tok.rbrace
    ∧ modeBeginTok ModeId.F_STRING Tok.fquote = true
    ∧ modeEndTok ModeId.F_STRING = some Tok.quote
    ∧ ModeId.F_STRING_INTERPOLATION ∈ modeContains ModeId.F_STRING
    ∧ ∀ n : Nat, acceptsFString (4 * n + 2) (nestedFString n) := by
  refine ⟨rfl, rfl, rfl, rfl, rfl, rfl, by decide, ?_⟩
  intro n
  show runMode (4 * n + 2) ModeId.F_STRING (fbody n) = some []
  have h := runMode_fbody n []
  rwa [List.append_nil] at h

end RyoHighlight

namespace RyoRuntime

theorem chanReachable_inv {V : Type} (C : Nat) (s : ChanHist V)
    (h : ChanReachable C s) :
    s.sent = s.received ++ s.chan.buffer
    ∧ s.chan.buffer.length ≤ s.chan.capacity := by
  induction h with
  | init => exact ⟨rfl, Nat.zero_le C⟩
  | step hr hs ih =>
    obtain ⟨h1, h2⟩ := ih
    rename_i s0 t0
    cases hs with
    | sendBuffered v hopen hroom =>
      refine ⟨?_, ?_⟩
      · show s0.sent ++ [v] = s0.received ++ (s0.chan.buffer ++ [v])
        rw [h1, List.append_assoc]
      · show (s0.chan.buffer ++ [v]).length ≤ s0.chan.capacity
        simpa using hroom
    | sendRendezvous v hopen hcap hbuf =>
      refine ⟨?_, h2⟩
      show s0.sent ++ [v] = (s0.received ++ [v]) ++ s0.chan.buffer
      rw [hbuf] at h1
      rw [h1, hbuf, List.append_nil, List.append_nil]
    | recvCommit v rest hbuf =>
      refine ⟨?_, ?_⟩
      · show s0.sent = (s0.received ++ [v]) ++ rest
        rw [h1, hbuf, List.append_assoc]
        rfl
      · show rest.length ≤ s0.chan.capacity
        rw [hbuf] at h2
        simp only [List.length_cons] at h2
        omega
    | closeStep => exact ⟨h1, h2⟩

/-- Claim C1: for every channel of capacity `C ≥ 0` and every reachable
history, the committed sends are exactly the committed receives followed by
the values still buffered — so no value is duplicated or silently dropped,
each received value was removed from the channel exactly once, receives
happen in exactly send-commit order (the receive history is a prefix of the
send history), counts agree as multisets, and once the buffer is drained
the two histories are equal.  The buffer also never exceeds the
capacity. -/
theorem channel_fifo_no_loss {V : Type} [DecidableEq V] (C : Nat)
    (s : ChanHist V) (h : ChanReachable C s) :
    s.sent = s.received ++ s.chan.buffer
    ∧ (∃ pending, s.received ++ pending = s.sent)
    ∧ (∀ v, s.sent.count v = s.received.count v + s.chan.buffer.count v)
    ∧ (s.chan.buffer = [] → s.sent = s.received)
    ∧ s.chan.buffer.length ≤ s.chan.capacity := by
  obtain ⟨h1, h2⟩ := chanReachable_inv C s h
  refine ⟨h1, ⟨s.chan.buffer, h1.symm⟩, ?_, ?_, h2⟩
  · intro v
    rw [h1, List.count_append]
  · intro hb
    rw [h1, hb, List.append_nil]

/-- Witness for C1: capacity 1, send 5 then receive it; the histories and
buffer of the resulting state satisfy the conservation equation. -/
theorem channel_fifo_no_loss_witness :
    (⟨⟨1, [], false⟩, [5], [5]⟩ : ChanHist Nat).sent
      = (⟨⟨1, [], false⟩, [5], [5]⟩ : ChanHist Nat).received
        ++ (⟨⟨1, [], false⟩, [5], [5]⟩ : ChanHist Nat).chan.buffer :=
  (channel_fifo_no_loss 1 ⟨⟨1, [], false⟩, [5], [5]⟩
    (ChanReachable.step
      (ChanReachable.step ChanReachable.init
        (ChanStep.sendBuffered (ChanHist.init Nat 1) 5 rfl (by decide)))
      (ChanStep.recvCommit ⟨⟨1, [5], false⟩, [5], []⟩ 5 [] rfl))).1

/-- Claim C5: `recv` suspends exactly when the buffer is empty and the
channel is open; on a closed empty channel it returns the ChannelClosed
signal immediately instead of suspending; and `send` on a closed channel
fails immediately with ChannelClosed and never suspends. -/
theorem recv_send_closed_behavior {V : Type} (c : Channel V) (v : V) :
    (recvAction c = RecvOutcome.suspends ↔ c.buffer = [] ∧ c.closed = false)
    ∧ (c.buffer = [] → c.closed = true →
        recvAction c = RecvOutcome.closedSignal)
    ∧ (c.closed = true → sendAction c v = SendOutcome.closedError)
    ∧ (c.closed = true → sendAction c v ≠ SendOutcome.suspends) := by
  cases hb : c.buffer with
  | nil =>
    cases hc : c.closed
    · simp [recvAction, sendAction, hb, hc]
    · simp [recvAction, sendAction, hb, hc]
  | cons x xs =>
    cases hc : c.closed
    · simp [recvAction, sendAction, hb, hc]
    · simp [recvAction, sendAction, hb, hc]

/-- Witness for C5 at a concrete closed empty channel. -/
theorem recv_send_closed_behavior_witness :
    recvAction (⟨1, [], true⟩ : Channel Nat) = RecvOutcome.closedSignal
    ∧ sendAction (⟨1, [], true⟩ : Channel Nat) 7 = SendOutcome.closedError :=
  ⟨(recv_send_closed_behavior (⟨1, [], true⟩ : Channel Nat) 7).2.1 rfl rfl,
   (recv_send_closed_behavior (⟨1, [], true⟩ : Channel Nat) 7).2.2.1 rfl⟩

/-- Claim C6: closing an already-closed channel has no additional effect —
the channel state after a second close equals the state after the first —
and a second `cancel` on an already-cancelled future is a no-op (indeed
`cancel` is idempotent on every future state). -/
theorem close_cancel_idempotent {V E : Type} :
    (∀ c : Channel V, closeChan (closeChan c) = closeChan c)
    ∧ (∀ s : FutureState V E,
        applyOp FutOp.cancel (applyOp FutOp.cancel s) = applyOp FutOp.cancel s)
    ∧ applyOp FutOp.cancel (FutureState.Cancelled : FutureState V E)
        = FutureState.Cancelled := by
  refine ⟨fun c => rfl, fun s => ?_, rfl⟩
  cases s <;> rfl

theorem applyOp_of_terminal {V E : Type} (op : FutOp V E)
    (s : FutureState V E) (h : s.isTerminal = true) : applyOp op s = s := by
  simp [applyOp, h]

theorem applyOps_of_terminal {V E : Type} (ops : List (FutOp V E))
    (s : FutureState V E) (h : s.isTerminal = true) : applyOps ops s = s := by
  induction ops with
  | nil => rfl
  | cons op ops ih =>
    show applyOps ops (applyOp op s) = s
    rw [applyOp_of_terminal op s h]
    exact ih

theorem changeCount_of_terminal {V E : Type} [DecidableEq V] [DecidableEq E]
    (s : FutureState V E) (ops : List (FutOp V E)) (h : s.isTerminal = true) :
    changeCount s ops = 0 := by
  induction ops with
  | nil => rfl
  | cons op ops ih =>
    show (if applyOp op s = s then 0 else 1) + changeCount (applyOp op s) ops
      = 0
    rw [applyOp_of_terminal op s h]
    simpa using ih

theorem changeCount_from_pending {V E : Type} [DecidableEq V] [DecidableEq E]
    (ops : List (FutOp V E)) :
    changeCount FutureState.Pending ops ≤ 1 := by
  induction ops with
  | nil => exact Nat.zero_le 1
  | cons op ops ih =>
    cases op with
    | resolve v =>
      show (if applyOp (FutOp.resolve v) FutureState.Pending
            = FutureState.Pending then 0 else 1)
          + changeCount (applyOp (FutOp.resolve v) FutureState.Pending) ops
          ≤ 1
      rw [show applyOp (FutOp.resolve v)
          (FutureState.Pending : FutureState V E) = FutureState.Ready v
        from rfl]
      rw [changeCount_of_terminal (FutureState.Ready v) ops rfl]
      simp
    | fail e =>
      show (if applyOp (FutOp.fail e) FutureState.Pending
            = FutureState.Pending then 0 else 1)
          + changeCount (applyOp (FutOp.fail e) FutureState.Pending) ops ≤ 1
      rw [show applyOp (FutOp.fail e)
          (FutureState.Pending : FutureState V E) = FutureState.Failed e
        from rfl]
      rw [changeCount_of_terminal (FutureState.Failed e) ops rfl]
      simp
    | cancel =>
      show (if applyOp FutOp.cancel FutureState.Pending
            = FutureState.Pending then 0 else 1)
          + changeCount (applyOp FutOp.cancel FutureState.Pending) ops ≤ 1
      rw [show applyOp (FutOp.cancel : FutOp V E) FutureState.Pending
          = FutureState.Cancelled from rfl]
      rw [changeCount_of_terminal FutureState.Cancelled ops rfl]
      simp
    | awaitRead =>
      show (if applyOp FutOp.awaitRead FutureState.Pending
            = FutureState.Pending then 0 else 1)
          + changeCount (applyOp FutOp.awaitRead FutureState.Pending) ops ≤ 1
      rw [show applyOp (FutOp.awaitRead : FutOp V E) FutureState.Pending
          = FutureState.Pending from rfl]
      simpa using ih

/-- Claim C4: a future's state slot is monotonic and single-write — any
sequence of operations applied from `Pending` changes the state at most
once, and once a terminal state is reached no subsequent operation
(resolution, failure, cancel, or the read done by `await`) ever changes
the state again. -/
theorem future_monotonic_single_write {V E : Type} [DecidableEq V]
    [DecidableEq E] (s : FutureState V E) (ops ops2 : List (FutOp V E))
    (hterm : s.isTerminal = true) :
    applyOps ops s = s
    ∧ changeCount FutureState.Pending ops2 ≤ 1
    ∧ changeCount s ops = 0 :=
  ⟨applyOps_of_terminal ops s hterm, changeCount_from_pending ops2,
   changeCount_of_terminal s ops hterm⟩

/-- Witness for C4: a resolved future survives a cancel and an await
unchanged, and a pending future written once changes state exactly once. -/
theorem future_monotonic_single_write_witness :
    applyOps [FutOp.cancel, FutOp.awaitRead]
        (FutureState.Ready 3 : FutureState Nat Nat) = FutureState.Ready 3
    ∧ changeCount FutureState.Pending
        ([FutOp.awaitRead, FutOp.resolve 7, FutOp.cancel]
          : List (FutOp Nat Nat)) ≤ 1
    ∧ changeCount (FutureState.Ready 3 : FutureState Nat Nat)
        [FutOp.cancel, FutOp.awaitRead] = 0 :=
  future_monotonic_single_write (FutureState.Ready 3)
    [FutOp.cancel, FutOp.awaitRead]
    [FutOp.awaitRead, FutOp.resolve 7, FutOp.cancel] rfl

theorem cellReachable_inv (s : CellSt) (h : CellReachable s) :
    s.payloadDrops = if s.count = 0 then 1 else 0 := by
  induction h with
  | init => rfl
  | step hr hs ih =>
    rename_i s0 t0
    cases hs with
    | clone hpos =>
      show s0.payloadDrops = if s0.count + 1 = 0 then 1 else 0
      rw [ih, if_neg (by omega), if_neg (by omega)]
    | dropHandle hpos =>
      show s0.payloadDrops + (if s0.count = 1 then 1 else 0)
        = if s0.count - 1 = 0 then 1 else 0
      by_cases hc : s0.count = 1
      · rw [ih, if_neg (by omega), if_pos hc, if_pos (by omega)]
      · rw [ih, if_neg (by omega), if_neg hc, if_neg (by omega)]

/-- Claim C7: starting from a freshly created `SharedCell` (count 1,
payload alive), along every interleaving of atomic clones and drops the
payload drop runs exactly once, precisely at the drop on which the count
transitions from 1 to 0 — never while the count is positive, never a
second time (once the count is 0 there is no further step at all). -/
theorem sharedcell_payload_dropped_once (s : CellSt) (h : CellReachable s) :
    s.payloadDrops = (if s.count = 0 then 1 else 0)
    ∧ (0 < s.count → s.payloadDrops = 0)
    ∧ s.payloadDrops ≤ 1
    ∧ (s.count = 0 → ∀ t, ¬ CellStep s t) := by
  have hinv := cellReachable_inv s h
  refine ⟨hinv, ?_, ?_, ?_⟩
  · intro hpos
    rw [hinv, if_neg (by omega)]
  · rw [hinv]
    split <;> omega
  · intro h0 t hstep
    cases hstep with
    | clone hpos => omega
    | dropHandle hpos => omega

/-- Witness for C7: clone, drop, drop — the payload drop runs exactly at
the final drop. -/
theorem sharedcell_payload_dropped_once_witness :
    (⟨0, 1⟩ : CellSt).payloadDrops
      = (if (⟨0, 1⟩ : CellSt).count = 0 then 1 else 0) :=
  (sharedcell_payload_dropped_once ⟨0, 1⟩
    (CellReachable.step
      (CellReachable.step
        (CellReachable.step CellReachable.init
          (CellStep.clone ⟨1, 0⟩ (by decide)))
        (CellStep.dropHandle ⟨2, 0⟩ (by decide)))
      (CellStep.dropHandle ⟨1, 0⟩ (by decide)))).1

theorem filter_length_set {A : Type} (p : A → Bool) (l : List A) (i : Nat)
    (cur next : A) (h : l.get? i = some cur) :
    ((l.set i next).filter p).length + (if p cur then 1 else 0)
      = (l.filter p).length + (if p next then 1 else 0) := by
  have hlt : i < l.length := (List.get?_eq_some.mp h).1
  obtain ⟨l1, l2, hdec, hlen, hset⟩ :
      ∃ l1 l2, l = l1 ++ l[i] :: l2 ∧ l1.length = i
        ∧ l.set i next = l1 ++ next :: l2 :=
    List.exists_of_set hlt
  have hcur : l[i] = cur := by
    obtain ⟨hlt2, hg⟩ := List.get?_eq_some.mp h
    simpa using hg
  rw [hcur] at hdec
  rw [hset, hdec, List.filter_append, List.filter_append,
    List.length_append, List.length_append]
  cases hp : p cur <;> cases hq : p next <;>
    simp [hp, hq, List.filter_cons_of_pos, List.filter_cons_of_neg] <;>
    omega

theorem TaskStep.src_not_terminal {a b : TaskState} (h : TaskStep a b) :
    a.isTerminal = false := by
  cases h <;> rfl

theorem scopeReachable_inv (s : ScopeSt) (h : ScopeReachable s) :
    s.count
      = ((s.children.filter (fun c => ! c.isTerminal)).length : Int) := by
  induction h with
  | init => rfl
  | step hr hs ih =>
    rename_i s0 t0
    cases hs with
    | spawn =>
      show s0.count + 1
        = (((s0.children ++ [TaskState.Ready]).filter
            (fun c => ! c.isTerminal)).length : Int)
      rw [List.filter_append, List.length_append, ih]
      simp [TaskState.isTerminal]
    | child i cur next hget hstep =>
      have hcur : cur.isTerminal = false := hstep.src_not_terminal
      have hfl := filter_length_set (fun c => ! c.isTerminal)
        s0.children i cur next hget
      show s0.count - (if next.isTerminal then 1 else 0)
        = (((s0.children.set i next).filter
            (fun c => ! c.isTerminal)).length : Int)
      cases hnt : next.isTerminal <;>
        simp [hcur, hnt] at hfl ⊢ <;> omega
    | requestCancel => exact ih

/-- Claim C3: along every reachable scope history the outstanding-child
counter equals the number of non-terminal children — so it is never
negative and reaches zero exactly when every child is terminal — and the
scope-exit condition (`enter_scope` returns only when the counter is zero,
regardless of the cancellation token) therefore implies that every child
spawned into the scope has reached a terminal state (Completed, Cancelled,
or Panicked) at the moment `enter_scope` returns. -/
theorem scope_joins_all_children (s : ScopeSt) (h : ScopeReachable s) :
    s.count = ((s.children.filter (fun c => ! c.isTerminal)).length : Int)
    ∧ 0 ≤ s.count
    ∧ (scopeExitEnabled s → ∀ c ∈ s.children, c.isTerminal = true)
    ∧ (s.count = 0 ↔ ∀ c ∈ s.children, c.isTerminal = true) := by
  have hinv := scopeReachable_inv s h
  have hiff : s.count = 0 ↔ ∀ c ∈ s.children, c.isTerminal = true := by
    rw [hinv]
    constructor
    · intro h0 c hc
      have hlen : (s.children.filter (fun c => ! c.isTerminal)).length = 0 :=
        by exact_mod_cast h0
      have hnil : s.children.filter (fun c => ! c.isTerminal) = [] :=
        List.length_eq_zero.mp hlen
      by_contra hct
      have hcf : c.isTerminal = false := by
        cases hb : c.isTerminal
        · rfl
        · exact absurd hb hct
      have hmem : c ∈ s.children.filter (fun c => ! c.isTerminal) :=
        List.mem_filter.mpr ⟨hc, by simp [hcf]⟩
      rw [hnil] at hmem
      simp at hmem
    · intro hall
      have hnil : s.children.filter (fun c => ! c.isTerminal) = [] := by
        rw [List.filter_eq_nil_iff]
        intro a ha
        simp [hall a ha]
      rw [hnil]
      rfl
  refine ⟨hinv, ?_, fun hexit => hiff.mp hexit, hiff⟩
  rw [hinv]
  omega

/-- Witness for C3: spawn one child, schedule it, let it complete; the
resulting scope state has count zero and the exit condition holds with all
children terminal. -/
theorem scope_joins_all_children_witness :
    (⟨[TaskState.Completed], false, 0⟩ : ScopeSt).count
      = (((⟨[TaskState.Completed], false, 0⟩ : ScopeSt).children.filter
          (fun c => ! c.isTerminal)).length : Int) :=
  (scope_joins_all_children ⟨[TaskState.Completed], false, 0⟩
    (ScopeReachable.step
      (ScopeReachable.step
        (ScopeReachable.step ScopeReachable.init (ScopeStep.spawn ScopeSt.init))
        (ScopeStep.child ⟨[TaskState.Ready], false, 1⟩ 0 TaskState.Ready
          TaskState.Running rfl TaskStep.schedule))
      (ScopeStep.child ⟨[TaskState.Running], false, 1⟩ 0 TaskState.Running
        TaskState.Completed rfl TaskStep.completes))).1

theorem readyList_env {n : Nat} (env : Nat → Fin n → Bool) (t : Nat)
    (w : Fin n) (h : w ∈ readyList n env t) : env t w = true := by
  have := List.mem_filter.mp h
  simpa using this.2

theorem selectRun_aux (n : Nat) (env : Nat → Fin n → Bool)
    (pick : List (Fin n) → Option (Fin n)) (claimOk : Nat → Fin n → Bool)
    (hpick : ∀ (l : List (Fin n)) (w : Fin n), pick l = some w → w ∈ l) :
    ∀ (fuel t : Nat) (st st2 : SelState n) (w : Fin n),
      (∀ i, st.committed i = false) → (∀ i, st.bodyRuns i = 0) →
      selectRun n env pick claimOk fuel t st = (st2, some w) →
      (∀ i, st2.committed i = decide (i = w))
      ∧ (∀ i, st2.registered i = false)
      ∧ st2.bodyRuns w = 1
      ∧ (∀ i, i ≠ w → st2.bodyRuns i = 0)
      ∧ ∃ u, env u w = true := by
  intro fuel
  induction fuel with
  | zero =>
    intro t st st2 w hc hb hrun
    exact absurd (congrArg Prod.snd hrun) (by simp [selectRun])
  | succ f ih =>
    intro t st st2 w hc hb hrun
    simp only [selectRun] at hrun
    cases hp : pick (readyList n env t) with
    | some w0 =>
      rw [hp] at hrun
      simp only at hrun
      cases hclaim : claimOk t w0 with
      | true =>
        rw [hclaim] at hrun
        simp only [cond] at hrun
        have hfst := congrArg Prod.fst hrun
        have hsnd := congrArg Prod.snd hrun
        simp only at hfst hsnd
        have hw : w0 = w := by injection hsnd
        have hst : st2 = ⟨fun _ => false,
            fun i => st.committed i || decide (i = w0),
            fun i => st.bodyRuns i + (if i = w0 then 1 else 0)⟩ := hfst.symm
        rw [hst, ← hw]
        refine ⟨?_, fun i => rfl, ?_, ?_, ⟨t, ?_⟩⟩
        · intro i
          show (st.committed i || decide (i = w0)) = decide (i = w0)
          rw [hc i, Bool.false_or]
        · show st.bodyRuns w0 + (if w0 = w0 then 1 else 0) = 1
          rw [hb w0, if_pos rfl]
        · intro i hi
          show st.bodyRuns i + (if i = w0 then 1 else 0) = 0
          rw [hb i, if_neg hi]
        · exact readyList_env env t w0 (hpick _ w0 hp)
      | false =>
        rw [hclaim] at hrun
        simp only [cond] at hrun
        exact ih (t + 1) ⟨fun _ => false, st.committed, st.bodyRuns⟩
          st2 w hc hb hrun
    | none =>
      rw [hp] at hrun
      simp only at hrun
      exact ih (t + 1) ⟨fun _ => true, st.committed, st.bodyRuns⟩
        st2 w hc hb hrun

/-- Claim C2: whenever a `select` invocation returns a winner `w`, the
ownership effect of exactly that one case has been committed (so a `send`
case that was not chosen has not transferred its value and no partial side
effect of a losing case is observable), the waiter registration of every
case has been cancelled before the return, the winner's body ran exactly
once and no other body ran at all; and if only a single case `i0` is ever
ready, any returned winner is that case. -/
theorem select_commits_at_most_one (n : Nat) (env : Nat → Fin n → Bool)
    (pick : List (Fin n) → Option (Fin n)) (claimOk : Nat → Fin n → Bool)
    (fuel t : Nat) (st2 : SelState n) (w : Fin n)
    (hpick : ∀ (l : List (Fin n)) (w2 : Fin n), pick l = some w2 → w2 ∈ l)
    (hrun : selectRun n env pick claimOk fuel t (SelState.start n)
      = (st2, some w)) :
    (∀ i, st2.committed i = decide (i = w))
    ∧ (∀ i, i ≠ w → st2.committed i = false)
    ∧ (∀ i, st2.registered i = false)
    ∧ st2.bodyRuns w = 1
    ∧ (∀ i, i ≠ w → st2.bodyRuns i = 0)
    ∧ (∀ i0 : Fin n, (∀ u i, env u i = true → i = i0) → w = i0) := by
  obtain ⟨h1, h2, h3, h4, h5⟩ :=
    selectRun_aux n env pick claimOk hpick fuel t (SelState.start n) st2 w
      (fun i => rfl) (fun i => rfl) hrun
  refine ⟨h1, ?_, h2, h3, h4, ?_⟩
  · intro i hi
    rw [h1 i]
    simp [hi]
  · intro i0 hall
    obtain ⟨u, hu⟩ := h5
    exact hall u w hu

/-- Witness for C2: two cases of which only case 0 is ever ready, an
always-succeeding claim, and the first-ready pick; the select returns with
case 0 run exactly once. -/
theorem select_commits_at_most_one_witness :
    (selectRun 2 (fun _ i => decide (i = (0 : Fin 2))) List.head?
        (fun _ _ => true) 1 0 (SelState.start 2)).1.bodyRuns 0 = 1 :=
  (select_commits_at_most_one 2 (fun _ i => decide (i = (0 : Fin 2)))
    List.head? (fun _ _ => true) 1 0
    (selectRun 2 (fun _ i => decide (i = (0 : Fin 2))) List.head?
        (fun _ _ => true) 1 0 (SelState.start 2)).1 0
    (fun l w2 h => by
      cases l with
      | nil => exact absurd h (by simp)
      | cons a tl =>
        obtain rfl : a = w2 := by simpa using h
        exact List.mem_cons_self a tl)
    rfl).2.2.2.1

end RyoRuntime
